import Mathlib

/-!
Verification of the rust-raycasting repository core against its specification.

The development shallowly embeds the Rust sources:
  * `src/player.rs` — the movement and collision resolver (`Player::walk`);
  * `src/main.rs`  — the frame compositor (`Video::put_pixel`,
    `Video::put_darkened_pixel`, `Video::new`, `Video::simple_scale_shape`,
    the wall-texturing row loop of `draw_world`).

Rust `f64` values are embedded as exact rationals (`ℚ`); the trigonometric
functions, the angle normalizer and the map constants live in files that are
not part of `src/` (`constants.rs`, `map.rs`), so they enter the model as
opaque parameters collected in `WalkEnv`.  Rust's saturating `as u8` cast on
floats is `castU8`.  Machine-integer arithmetic (`u32`, `i32`, `u16`, `u8`)
is embedded over `ℕ`/`ℤ`; wrap-around conversions that the code can actually
perform are made explicit (`u32sub`, `i32ofU32`, `u32ofI32`, the `% 256` of
byte reads), while additions and multiplications whose operands stay far
below `2^32` in every reachable configuration are kept exact.
-/

namespace Raycasting

/-- Tile classification of the grid map.  Modelled from the spec: `map.rs` is
not part of `src/`; §3 of the spec gives the variants
`{Wall(id), Floor, Door{state}}`. -/
inductive Tile where
  | Wall : ℕ → Tile
  | Floor : Tile
  | Door : Bool → Tile
deriving DecidableEq, Repr

/-- Boolean version of the `matches!(…, Tile::Wall(_))` tests in `player.rs`. -/
def isWallB : Tile → Bool
  | Tile.Wall _ => true
  | _ => false

/-- `player.rs`: `pub enum StraightMovement { Forward, Backward }`. -/
inductive StraightMovement where
  | Forward
  | Backward
deriving DecidableEq, Repr

/-- `player.rs`: `pub enum SideMovement { StrafeRight, StrafeLeft }`. -/
inductive SideMovement where
  | StrafeRight
  | StrafeLeft
deriving DecidableEq, Repr

/-- `player.rs`: `pub enum TurnMovement { TurnRight, TurnLeft }`. -/
inductive TurnMovement where
  | TurnRight
  | TurnLeft
deriving DecidableEq, Repr

/-- `player.rs`: `pub struct Player` with position and the two angles. -/
structure Player where
  x : ℚ
  y : ℚ
  view_angle : ℚ
  move_angle : ℚ
deriving DecidableEq, Repr

/-- `player.rs`: `const ROTATE_SPEED: f64 = 0.02;` (exactly `1/50`). -/
def ROTATE_SPEED : ℚ := 1 / 50

/-- `player.rs`: `const MOVE_SPEED: f64 = 2.5;`. -/
def MOVE_SPEED : ℚ := 5 / 2

/-- `player.rs`: `const PLAYER_WIDTH: f64 = 7.0;`. -/
def PLAYER_WIDTH : ℚ := 7

/-- Rust `f64::signum` restricted to the non-NaN rationals: `1` for
nonnegative input (Rust returns `1.0` on `+0.0`), `-1` for negative. -/
def signq (q : ℚ) : ℚ := if q < 0 then -1 else 1

/-- Rust's saturating float-to-`u8` cast (`as u8`): truncate toward zero and
clamp into `[0, 255]`. -/
def castU8 (q : ℚ) : ℕ := if q < 0 then 0 else min 255 ⌊q⌋.toNat

/-- Environment of collaborators of `Player::walk` that live outside `src/`:
the trig functions and `PI` used for headings (`std::f64`), and
`constants.rs`' `norm_angle`, `MAP_SCALE_W`, `MAP_SCALE_H` together with
`map.rs`' `tile_at`.  Modelled from the spec: these are parameters because
their defining files are not in `src/`; every theorem below holds for all
instantiations. -/
structure WalkEnv where
  rsin : ℚ → ℚ
  rcos : ℚ → ℚ
  norm_angle : ℚ → ℚ
  piq : ℚ
  mapScaleW : ℚ
  mapScaleH : ℚ
  tile_at : ℕ → ℕ → Tile

/-- `player.rs` lines 42–46: turning updates `view_angle` by
`±ROTATE_SPEED` and renormalizes; no turn leaves it unchanged. -/
def postView (e : WalkEnv) (turn : Option TurnMovement) (p : Player) : ℚ :=
  match turn with
  | some TurnMovement.TurnLeft => e.norm_angle (p.view_angle + ROTATE_SPEED)
  | some TurnMovement.TurnRight => e.norm_angle (p.view_angle - ROTATE_SPEED)
  | none => p.view_angle

/-- `player.rs` lines 49–65: the movement heading chosen from the straight
and side intents, relative to the (post-turn) view angle `va`; with no
intent the previous heading `prev` is kept. -/
def moveAngleQ (piq va prev : ℚ) (straight : Option StraightMovement)
    (side : Option SideMovement) : ℚ :=
  match straight with
  | some StraightMovement.Forward =>
    match side with
    | some SideMovement.StrafeLeft => va + piq / 4
    | some SideMovement.StrafeRight => va - piq / 4
    | none => va
  | some StraightMovement.Backward =>
    match side with
    | some SideMovement.StrafeLeft => va - piq - piq / 4
    | some SideMovement.StrafeRight => va - piq + piq / 4
    | none => va - piq
  | none =>
    match side with
    | some SideMovement.StrafeLeft => va + piq / 2
    | some SideMovement.StrafeRight => va - piq / 2
    | none => prev

/-- Post-walk movement heading: `moveAngleQ` applied to the post-turn view
angle (`player.rs` computes `self.move_angle` after the turn update). -/
def postMoveAngle (e : WalkEnv) (straight : Option StraightMovement)
    (side : Option SideMovement) (turn : Option TurnMovement) (p : Player) : ℚ :=
  moveAngleQ e.piq (postView e turn p) p.move_angle straight side

/-- `player.rs` lines 67–70: base speed, doubled when running. -/
def speedOf (run : Bool) : ℚ := if run then MOVE_SPEED * 2 else MOVE_SPEED

/-- `player.rs` line 72: tentative `new_x`. -/
def newXOf (e : WalkEnv) (straight : Option StraightMovement)
    (side : Option SideMovement) (turn : Option TurnMovement) (run : Bool)
    (p : Player) : ℚ :=
  p.x + e.rsin (postMoveAngle e straight side turn p) * speedOf run

/-- `player.rs` line 73: tentative `new_y`. -/
def newYOf (e : WalkEnv) (straight : Option StraightMovement)
    (side : Option SideMovement) (turn : Option TurnMovement) (run : Bool)
    (p : Player) : ℚ :=
  p.y + e.rcos (postMoveAngle e straight side turn p) * speedOf run

/-- `player.rs` line 75: `new_map_x = new_x / MAP_SCALE_W`. -/
def nmxOf (e : WalkEnv) (straight : Option StraightMovement)
    (side : Option SideMovement) (turn : Option TurnMovement) (run : Bool)
    (p : Player) : ℚ :=
  newXOf e straight side turn run p / e.mapScaleW

/-- `player.rs` line 76: `new_map_y = new_y / MAP_SCALE_H`. -/
def nmyOf (e : WalkEnv) (straight : Option StraightMovement)
    (side : Option SideMovement) (turn : Option TurnMovement) (run : Bool)
    (p : Player) : ℚ :=
  newYOf e straight side turn run p / e.mapScaleH

/-- `player.rs` lines 78–79: `collision_offset_x`. -/
def offXOf (e : WalkEnv) (straight : Option StraightMovement)
    (side : Option SideMovement) (turn : Option TurnMovement) (p : Player) : ℚ :=
  signq (e.rsin (postMoveAngle e straight side turn p)) * PLAYER_WIDTH / e.mapScaleW

/-- `player.rs` lines 80–81: `collision_offset_y`. -/
def offYOf (e : WalkEnv) (straight : Option StraightMovement)
    (side : Option SideMovement) (turn : Option TurnMovement) (p : Player) : ℚ :=
  signq (e.rcos (postMoveAngle e straight side turn p)) * PLAYER_WIDTH / e.mapScaleH

/-- `player.rs` lines 83–89: the X-leading margin test cell
`((new_map_x + off_x) as u8, (new_map_y - off_y) as u8)`. -/
def slideXCell (nmx nmy offX offY : ℚ) : ℕ × ℕ :=
  (castU8 (nmx + offX), castU8 (nmy - offY))

/-- `player.rs` lines 91–97: the Y-leading margin test cell
`((new_map_x - off_x) as u8, (new_map_y + off_y) as u8)`. -/
def slideYCell (nmx nmy offX offY : ℚ) : ℕ × ℕ :=
  (castU8 (nmx - offX), castU8 (nmy + offY))

/-- `player.rs` lines 99–105: the diagonal corner test cell
`((new_map_x + off_x) as u8, (new_map_y + off_y) as u8)`. -/
def bothCell (nmx nmy offX offY : ℚ) : ℕ × ℕ :=
  (castU8 (nmx + offX), castU8 (nmy + offY))

/-- `player.rs` lines 107–136: the commit decision.  Given the three wall
tests `sx`/`sy`/`sb` and the offset tentative map position
`px = new_map_x + off_x`, `py = new_map_y + off_y`, return which axes commit
their tentative coordinate.  The corner branch (lines 107–128) snaps
`px`/`py` to the blocking grid line (`floor` along a positive offset,
`ceil` along a negative one) and commits the axis farther from its line;
otherwise (lines 129–136) each axis commits exactly when its own slide test
found no wall. -/
def commitCore (sx sy sb : Bool) (offX offY px py : ℚ) : Bool × Bool :=
  if sb && !sx && !sy then
    let wx : ℚ := if 0 < offX then (⌊px⌋ : ℚ) else (⌈px⌉ : ℚ)
    let wy : ℚ := if 0 < offY then (⌊py⌋ : ℚ) else (⌈py⌉ : ℚ)
    if |px - wx| > |py - wy| then (true, false) else (false, true)
  else (!sx, !sy)

/-- The commit decision of a full `Player::walk` call. -/
def commitOf (e : WalkEnv) (straight : Option StraightMovement)
    (side : Option SideMovement) (turn : Option TurnMovement) (run : Bool)
    (p : Player) : Bool × Bool :=
  let nmx := nmxOf e straight side turn run p
  let nmy := nmyOf e straight side turn run p
  let offX := offXOf e straight side turn p
  let offY := offYOf e straight side turn p
  commitCore
    (isWallB (e.tile_at (slideXCell nmx nmy offX offY).1 (slideXCell nmx nmy offX offY).2))
    (isWallB (e.tile_at (slideYCell nmx nmy offX offY).1 (slideYCell nmx nmy offX offY).2))
    (isWallB (e.tile_at (bothCell nmx nmy offX offY).1 (bothCell nmx nmy offX offY).2))
    offX offY (nmx + offX) (nmy + offY)

/-- `player.rs` lines 34–138: `Player::walk`.  Turning always applies; with
no straight/side intent the position and heading are untouched (the whole
`if side.is_some() || straight.is_some()` block is skipped); otherwise the
heading, tentative position and collision commits are resolved as above. -/
def walk (e : WalkEnv) (straight : Option StraightMovement)
    (side : Option SideMovement) (turn : Option TurnMovement) (run : Bool)
    (p : Player) : Player :=
  if side.isSome || straight.isSome then
    let c := commitOf e straight side turn run p
    { x := if c.1 then newXOf e straight side turn run p else p.x
      y := if c.2 then newYOf e straight side turn run p else p.y
      view_angle := postView e turn p
      move_angle := postMoveAngle e straight side turn p }
  else
    { p with view_angle := postView e turn p }

/-! ### Video: framebuffer, palette, pixel writers (`main.rs`) -/

/-- `main.rs` line 31: `const DARKNESS: f64 = 0.75;` (exactly `3/4`). -/
def DARKNESS : ℚ := 3 / 4

/-- `main.rs` lines 45–54: the `Video` state.  The `color_map` array
`[(u8, u8, u8); 256]` is embedded as a list of RGB triples (its length is
`256` by its Rust type); the `Vec<u32>` framebuffer as a list of packed
words. -/
structure Video where
  width : ℕ
  height : ℕ
  pix_width : ℕ
  pix_height : ℕ
  pix_center : ℕ
  color_map : List (ℕ × ℕ × ℕ)
  buffer : List ℕ
deriving DecidableEq, Repr

/-- Packing `(r << 16) | (g << 8) | b` of `put_pixel`/`put_darkened_pixel`. -/
def packRGB (r g b : ℕ) : ℕ := (r <<< 16) ||| (g <<< 8) ||| b

/-- `main.rs` lines 246–264: `Video::new`.  `BASE_WIDTH`, `BASE_HEIGHT` and
`STATUS_LINES` live in `constants.rs` (not in `src/`) and the palette comes
from `build_color_map()`; they are parameters here, so the theorems hold for
every instantiation. -/
def video_new (base_width base_height status_lines : ℕ)
    (cm : List (ℕ × ℕ × ℕ)) (scale : ℕ) : Video :=
  let width := base_width * scale
  let height := base_height * scale
  let pix_width := width
  let pix_height := height - status_lines * scale
  let pix_center := pix_height / 2
  { width := width, height := height, pix_width := pix_width,
    pix_height := pix_height, pix_center := pix_center,
    color_map := cm, buffer := List.replicate (width * height) 0 }

/-- `main.rs` lines 266–283: `Video::put_pixel`.  Out-of-range `x`/`y`,
out-of-palette `color_index` and out-of-range offsets all return with the
buffer untouched. -/
def put_pixel (v : Video) (x y color_index : ℕ) : Video :=
  if v.width ≤ x ∨ v.height ≤ y then v
  else if v.color_map.length ≤ color_index then v
  else
    let offset := y * v.width + x
    if offset < v.buffer.length then
      let rgb := v.color_map.getD color_index (0, 0, 0)
      { v with buffer := v.buffer.set offset (packRGB rgb.1 rgb.2.1 rgb.2.2) }
    else v

/-- `main.rs` lines 298–299: the darkening factor
`min(lightness, pix_center) as f64 / pix_center as f64 / DARKNESS`. -/
def darkFactor (pix_center lightness : ℕ) : ℚ :=
  ((min lightness pix_center : ℕ) : ℚ) / (pix_center : ℚ) / DARKNESS

/-- `main.rs` lines 300–302: one colour channel of a darkened pixel,
`(c as f64 * factor) as u8`. -/
def darkChannel (pix_center lightness c : ℕ) : ℕ :=
  castU8 ((c : ℚ) * darkFactor pix_center lightness)

/-- `main.rs` lines 285–305: `Video::put_darkened_pixel`.  Unlike
`put_pixel`, the palette index is *not* checked: `self.color_map[color_index]`
on an index at or beyond 256 is an out-of-bounds array access, which in Rust
aborts the program — embedded as `none`.  All in-range outcomes are `some`. -/
def put_darkened_pixel (v : Video) (x y color_index lightness : ℕ) :
    Option Video :=
  if v.width ≤ x ∨ v.height ≤ y then some v
  else
    let offset := y * v.width + x
    if v.buffer.length ≤ offset then some v
    else if h : color_index < v.color_map.length then
      let rgb := v.color_map.get ⟨color_index, h⟩
      let word := packRGB (darkChannel v.pix_center lightness rgb.1)
        (darkChannel v.pix_center lightness rgb.2.1)
        (darkChannel v.pix_center lightness rgb.2.2)
      some { v with buffer := v.buffer.set offset word }
    else none

/-- A compositing routine built on `put_pixel` (`draw_texture`,
`simple_scale_shape`, `draw_digit`, `draw_minimap` are all straight-line
sequences of `put_pixel` calls): fold a list of requested writes through
`put_pixel`. -/
def applyWrites (v : Video) (ws : List (ℕ × ℕ × ℕ)) : Video :=
  ws.foldl (fun acc w => put_pixel acc w.1 w.2.1 w.2.2) v

/-- Rust's half-open integer range `a..b` as a list. -/
def intRange (a b : ℤ) : List ℤ :=
  (List.range (b - a).toNat).map (fun (k : ℕ) => a + (k : ℤ))

/-- `main.rs` lines 204–213: the rows targeted by the wall-texturing pass of
`draw_world` for one screen column — `for y in pix_center - current ..
pix_center + current`, kept when `y >= 0 && y <= pix_height`.  (`current` is
the hit's projected half-height as `i32`.) -/
def wallColumnRows (pix_center pix_height : ℕ) (current : ℤ) : List ℤ :=
  (intRange ((pix_center : ℤ) - current) ((pix_center : ℤ) + current)).filter
    (fun y => decide (0 ≤ y ∧ y ≤ (pix_height : ℤ)))

/-- Concrete 1×1 video with a full-length (256-entry) palette, used to
evaluate the pixel writers at explicit inputs. -/
def sampleVideo : Video :=
  { width := 1, height := 1, pix_width := 1, pix_height := 1, pix_center := 1,
    color_map := List.replicate 256 (0, 0, 0), buffer := [0] }

/-! ### Sprite rasterizer: `Video::simple_scale_shape` (`main.rs` 333–422)

The function is embedded as a generator of the list of `(column, row)`
coordinates passed to `put_pixel`, which is everything the monotonicity and
bounds claims are about (the colour byte fetched from `shape_bytes` does not
influence coordinates).  The `u32`/`i32` wrap-around conversions the code can
actually perform (`xcenter - scale`, `pix_height / 2 - scale`,
`screndy as u32`) are modelled exactly; sums and products that stay far below
`2^32` for machine-representable inputs are kept exact. -/

/-- Wrapping `u32` subtraction (for arguments below `2^32`). -/
def u32sub (a b : ℕ) : ℕ := (a + 2 ^ 32 - b) % 2 ^ 32

/-- Reinterpreting cast `u32 as i32`. -/
def i32ofU32 (n : ℕ) : ℤ := if n < 2 ^ 31 then (n : ℤ) else (n : ℤ) - 2 ^ 32

/-- Reinterpreting cast `i32 as u32`. -/
def u32ofI32 (z : ℤ) : ℕ := (z % 2 ^ 32).toNat

/-- The `read_word` closure: little-endian `u16` from the next two bytes of
the stream, `0` past the end (`unwrap_or(&0)`); `% 256` realizes the `u8`
type of the stream elements. -/
def readWord (l : List ℕ) : ℕ × List ℕ :=
  (l.headD 0 % 256 + 256 * ((l.drop 1).headD 0 % 256), l.drop 2)

/-- The `read_word_signed` closure: same bytes reinterpreted as `i16`. -/
def readWordSigned (l : List ℕ) : ℤ × List ℕ :=
  let r := readWord l
  (if r.1 < 32768 then (r.1 : ℤ) else (r.1 : ℤ) - 65536, r.2)

/-- `main.rs` lines 383–414: the per-run row loop (`while j < endy`).
State: remaining iterations `endy - j`, the fixed-point accumulator `ycnt`,
the current `screndy`, and the destination row cursor `pixy`.  A drawing
iteration (where `screndy` advanced and is positive) emits rows
`pixy, pixy+1, …`; clipping `screndy` to `pix_height` also forces `j = endy`,
ending the run. -/
def runLoop (pixheight : ℕ) (upperedge : ℤ) (ph lpix : ℕ) :
    ℕ → ℕ → ℤ → ℕ → List (ℕ × ℕ)
  | 0, _, _, _ => []
  | n + 1, ycnt, screndy, pixy =>
    let scrstarty := screndy
    let ycnt2 := ycnt + pixheight
    let screndy2 : ℤ := ((ycnt2 >>> 6 : ℕ) : ℤ) + upperedge
    if scrstarty ≠ screndy2 ∧ 0 < screndy2 then
      let scrstarty2 := if scrstarty < 0 then 0 else scrstarty
      let stop := (ph : ℤ) < screndy2
      let screndy3 := if (ph : ℤ) < screndy2 then (ph : ℤ) else screndy2
      let cnt := (screndy3 - scrstarty2).toNat
      let px := (List.range cnt).map (fun k => (lpix, pixy + k))
      if stop then px
      else px ++ runLoop pixheight upperedge ph lpix n ycnt2 screndy2 (pixy + cnt)
    else runLoop pixheight upperedge ph lpix n ycnt2 screndy2 pixy

/-- `main.rs` lines 381–387: initialisation of one run — `j = starty`,
`ycnt = j * pixheight`, `screndy = (ycnt >> 6) + upperedge`,
`pixy = screndy as u32` — followed by the row loop. -/
def runPixels (pixheight : ℕ) (upperedge : ℤ) (ph lpix starty endy : ℕ) :
    List (ℕ × ℕ) :=
  let ycnt := starty * pixheight
  let screndy : ℤ := ((ycnt >>> 6 : ℕ) : ℤ) + upperedge
  runLoop pixheight upperedge ph lpix (endy - starty) ycnt screndy
    (u32ofI32 screndy)

/-- `main.rs` lines 377–416: decoding one column's command list (`while
endy > 0`): read `endy`, stop at the zero terminator, else halve it, read the
signed colour offset and `starty`, draw the run, continue with the rest of
the stream.  Fuel `line.length + 1` is enough: every non-final iteration
consumes stream bytes. -/
def clineLoop (pixheight : ℕ) (upperedge : ℤ) (ph lpix : ℕ) :
    ℕ → List ℕ → List (ℕ × ℕ)
  | 0, _ => []
  | n + 1, line =>
    let r1 := readWord line
    if r1.1 = 0 then []
    else
      let endy := r1.1 >>> 1
      let r2 := readWordSigned r1.2
      let r3 := readWord r2.2
      let starty := r3.1 >>> 1
      runPixels pixheight upperedge ph lpix starty endy ++
        clineLoop pixheight upperedge ph lpix n r3.2
/- `r2.1` is `newstart`, the signed colour-stream offset; it selects colours
only and never coordinates. -/

/-- `main.rs` lines 354–421: the outer source-column loop
(`while i <= right_pix`).  State: remaining iterations `right_pix + 1 - i`,
the accumulator `pixcnt`, the current `rpix`, the remaining `dataofs`
entries (`cmdptr`).  `lpix >= pix_width` breaks; a drawing group (where
`rpix` advanced and is positive) clips `rpix` to `pix_width` — which also
forces `i = right_pix + 1`, ending the loop — takes the next command-list
offset, and replays the column's command list once per destination column
`lpix, lpix+1, …, rpix-1`. -/
def outerLoop (pw ph pixheight actx : ℕ) (upperedge : ℤ)
    (shape_bytes : List ℕ) :
    ℕ → ℕ → ℕ → List ℕ → List (ℕ × ℕ)
  | 0, _, _, _ => []
  | n + 1, pixcnt, rpix, dataofs =>
    let lpix := rpix
    if pw ≤ lpix then []
    else
      let pixcnt2 := pixcnt + pixheight
      let rpix2 := (pixcnt2 >>> 6) + actx
      if lpix ≠ rpix2 ∧ 0 < rpix2 then
        let stop := pw < rpix2
        let rpix3 := if pw < rpix2 then pw else rpix2
        let cline := shape_bytes.drop (dataofs.headD 0)
        let cols := (List.range (rpix3 - lpix)).flatMap
          (fun k => clineLoop pixheight upperedge ph (lpix + k)
            (cline.length + 1) cline)
        if stop then cols
        else cols ++ outerLoop pw ph pixheight actx upperedge shape_bytes n
          pixcnt2 rpix3 dataofs.tail
      else outerLoop pw ph pixheight actx upperedge shape_bytes n
        pixcnt2 rpix2 dataofs

/-- `main.rs` lines 333–422: `Video::simple_scale_shape`, as the list of
`(column, row)` pairs passed to `put_pixel`.  The derived quantities follow
lines 340–352: `sprite_scale_factor = 2`, `xcenter = pix_width / 2`,
`height = pix_height + 1`, `scale = height >> 1`,
`pixheight = scale * sprite_scale_factor`, `actx = xcenter - scale`,
`upperedge = pix_height / 2 - scale` (both subtractions on `u32`),
`pixcnt = left_pix * pixheight`, `rpix = (pixcnt >> 6) + actx`. -/
def simple_scale_shape (pw ph left_pix right_pix : ℕ)
    (dataofs shape_bytes : List ℕ) : List (ℕ × ℕ) :=
  let sprite_scale_factor := 2
  let xcenter := pw / 2
  let height := ph + 1
  let scale := height >>> 1
  let pixheight := scale * sprite_scale_factor
  let actx := u32sub xcenter scale
  let upperedge := i32ofU32 (u32sub (ph / 2) scale)
  let pixcnt := left_pix * pixheight
  let rpix := (pixcnt >>> 6) + actx
  outerLoop pw ph pixheight actx upperedge shape_bytes
    (right_pix + 1 - left_pix) pixcnt rpix dataofs

/-- Closed form of the destination-column accumulator: after the iteration
for source column `i`, `pixcnt = i * pixheight` (initialised at `left_pix *
pixheight` and advanced by `pixheight` in lock step with `i`), so
`rpix = (pixcnt >> 6) + actx`. -/
def rpixAt (pixheight actx i : ℕ) : ℕ := ((i * pixheight) >>> 6) + actx

/-- Closed form of the destination-row accumulator: at source row `j`,
`ycnt = j * pixheight` (initialised at `starty * pixheight` and advanced by
`pixheight` in lock step with `j`), so `screndy = (ycnt >> 6) + upperedge`. -/
def screndyAt (pixheight : ℕ) (upperedge : ℤ) (j : ℕ) : ℤ :=
  (((j * pixheight) >>> 6 : ℕ) : ℤ) + upperedge

/-! ### Ray caster (spec-modelled)

Modelled from the spec: `ray_caster.rs` is not part of `src/`.  Spec §4.1
describes a DDA grid walk — "advance to the next vertical or horizontal grid
boundary, whichever is nearer, tracking which boundary family was crossed
last", stopping at the first `Wall` tile — and §3/§4.1 describe the Hit
record, whose `height` is a projection constant over the perpendicular ray
distance.  Directions and positions are rationals; the projection constant
and the fisheye-correction cosine are positive parameters. -/

/-- Sign of a ray direction component. -/
def sgnz (q : ℚ) : ℤ := if 0 < q then 1 else if q < 0 then -1 else 0

/-- Per-axis `t` increment between consecutive grid lines (`1 / |d|`). -/
def tDelta (d : ℚ) : ℚ := if d = 0 then 0 else 1 / |d|

/-- Ray parameter of the first grid boundary strictly ahead on one axis:
from coordinate `p` moving with component `d`. -/
def firstBoundary (p d : ℚ) : ℚ :=
  if 0 < d then ((⌊p⌋ : ℚ) + 1 - p) / d
  else if d < 0 then
    (p - (if (⌊p⌋ : ℚ) = p then (⌊p⌋ : ℚ) - 1 else (⌊p⌋ : ℚ))) / (-d)
  else 0

/-- DDA walker state: current grid cell and the ray parameters of the next
vertical/horizontal boundary crossings. -/
structure DDAState where
  cx : ℤ
  cy : ℤ
  tMaxX : ℚ
  tMaxY : ℚ
deriving DecidableEq, Repr

/-- Ray hit record (spec §3): which grid-line family was struck, the wall's
identity, and the projected half-height. -/
structure Hit where
  horizontal : Bool
  tile : ℕ
  height : ℚ
deriving DecidableEq, Repr

/-- Choose the stepping axis: a vertical-boundary step needs `dx ≠ 0` and
either a horizontal ray (`dy = 0`) or the vertical crossing being nearer. -/
def stepIsX (dx dy : ℚ) (s : DDAState) : Bool :=
  decide (dx ≠ 0) && (decide (dy = 0) || decide (s.tMaxX ≤ s.tMaxY))

/-- One DDA step: advance to the nearer boundary; return the new state, the
ray parameter of the crossing, and whether a horizontal grid line was
crossed. -/
def ddaStep (dx dy : ℚ) (s : DDAState) : DDAState × ℚ × Bool :=
  if stepIsX dx dy s then
    ({ s with cx := s.cx + sgnz dx, tMaxX := s.tMaxX + tDelta dx },
      s.tMaxX, false)
  else
    ({ s with cy := s.cy + sgnz dy, tMaxY := s.tMaxY + tDelta dy },
      s.tMaxY, true)

/-- Projected half-height of a hit at ray parameter `t`: projection constant
over the perpendicular distance `t * viewCos` (spec §4.1, Glossary). -/
def hitHeight (projK viewCos t : ℚ) : ℚ := projK / (t * viewCos)

/-- Cast one ray with the given fuel: step to the next boundary, stop with a
`Hit` at the first `Wall` tile, recurse otherwise. -/
def castRay (M : ℤ → ℤ → Tile) (dx dy projK viewCos : ℚ) :
    ℕ → DDAState → Option Hit
  | 0, _ => none
  | n + 1, s =>
    let r := ddaStep dx dy s
    match M r.1.cx r.1.cy with
    | Tile.Wall id => some ⟨r.2.2, id, hitHeight projK viewCos r.2.1⟩
    | _ => castRay M dx dy projK viewCos n r.1

/-- Initial DDA state for a camera at `(px, py)` with direction `(dx, dy)`:
the camera's cell and the first boundary crossings on each axis. -/
def initDDA (px py dx dy : ℚ) : DDAState :=
  ⟨⌊px⌋, ⌊py⌋, firstBoundary px dx, firstBoundary py dy⟩

/-- Termination measure of the DDA walk: grid cells remaining to the
boundary ring along each travelled axis. -/
def ddaMeasure (W H : ℕ) (dx dy : ℚ) (s : DDAState) : ℤ :=
  (if 0 < dx then (W : ℤ) - 1 - s.cx else if dx < 0 then s.cx else 0) +
    (if 0 < dy then (H : ℤ) - 1 - s.cy else if dy < 0 then s.cy else 0)

/-! ### Helper lemmas -/

/-- Membership in a Rust half-open integer range. -/
theorem mem_intRange {a b y : ℤ} : y ∈ intRange a b ↔ a ≤ y ∧ y < b := by
  unfold intRange
  constructor
  · intro h
    rcases List.mem_map.1 h with ⟨k, hk, rfl⟩
    rw [List.mem_range] at hk
    omega
  · intro h
    refine List.mem_map.2 ⟨(y - a).toNat, ?_, ?_⟩
    · rw [List.mem_range]
      omega
    · omega

/-- The commit decision never commits an axis whose own slide test found a
wall: both branches of `commitCore` return `false` on an axis whose test
boolean is `true`. -/
theorem commitCore_not_wall (sx sy sb : Bool) (offX offY px py : ℚ) :
    ((commitCore sx sy sb offX offY px py).1 && sx) = false ∧
      ((commitCore sx sy sb offX offY px py).2 && sy) = false := by
  unfold commitCore
  cases sx <;> cases sy <;> cases sb <;> simp

/-! ### C1: the resolver never commits an axis whose offset test cell is a
wall -/

/-- C1.  For every environment (map, trig, scales), input frame and player
state: an axis commits in `Player::walk` only if its margin-offset collision
test cell is not a `Wall`, and the post-walk position is exactly the
tentative coordinate on the committed axes and the old coordinate on the
rest. -/
theorem walk_never_commits_blocked_axis (e : WalkEnv)
    (s : Option StraightMovement) (sd : Option SideMovement)
    (t : Option TurnMovement) (r : Bool) (p : Player) :
    (((commitOf e s sd t r p).1 &&
        isWallB (e.tile_at
          (slideXCell (nmxOf e s sd t r p) (nmyOf e s sd t r p)
            (offXOf e s sd t p) (offYOf e s sd t p)).1
          (slideXCell (nmxOf e s sd t r p) (nmyOf e s sd t r p)
            (offXOf e s sd t p) (offYOf e s sd t p)).2)) = false) ∧
      (((commitOf e s sd t r p).2 &&
        isWallB (e.tile_at
          (slideYCell (nmxOf e s sd t r p) (nmyOf e s sd t r p)
            (offXOf e s sd t p) (offYOf e s sd t p)).1
          (slideYCell (nmxOf e s sd t r p) (nmyOf e s sd t r p)
            (offXOf e s sd t p) (offYOf e s sd t p)).2)) = false) ∧
      (walk e s sd t r p).x =
        (if sd.isSome || s.isSome then
          (if (commitOf e s sd t r p).1 then newXOf e s sd t r p else p.x)
        else p.x) ∧
      (walk e s sd t r p).y =
        (if sd.isSome || s.isSome then
          (if (commitOf e s sd t r p).2 then newYOf e s sd t r p else p.y)
        else p.y) := by
  refine ⟨?_, ?_, ?_, ?_⟩
  · exact (commitCore_not_wall _ _ _ _ _ _ _).1
  · exact (commitCore_not_wall _ _ _ _ _ _ _).2
  · unfold walk
    split <;> simp
  · unfold walk
    split <;> simp

/-! ### C7: turning alone never translates -/

/-- C7.  With neither a straight nor a side intent, `Player::walk` leaves
`x`, `y` and `move_angle` unchanged; only `view_angle` is updated (to
`postView`). -/
theorem walk_no_intent_only_turns (e : WalkEnv) (t : Option TurnMovement)
    (r : Bool) (p : Player) :
    (walk e none none t r p).x = p.x ∧ (walk e none none t r p).y = p.y ∧
      (walk e none none t r p).move_angle = p.move_angle ∧
      (walk e none none t r p).view_angle = postView e t p := by
  simp [walk]

/-! ### C8: the movement heading is one of eight fixed offsets -/

/-- C8.  Whenever a straight or side intent is present, the heading computed
by `Player::walk` is `view_angle + k·(π/4)` for the eight spec offsets —
forward `0`, forward diagonals `±1`, strafes `±2`, backward diagonals `±3`
(the left one realized `2π` lower), backward `4` (realized `2π` lower) — and
with no intent the previous heading is kept. -/
theorem moveAngle_eight_offsets (piq va prev : ℚ) :
    moveAngleQ piq va prev (some StraightMovement.Forward) none =
        va + 0 * (piq / 4) ∧
      moveAngleQ piq va prev (some StraightMovement.Forward)
          (some SideMovement.StrafeLeft) = va + 1 * (piq / 4) ∧
      moveAngleQ piq va prev (some StraightMovement.Forward)
          (some SideMovement.StrafeRight) = va + (-1) * (piq / 4) ∧
      moveAngleQ piq va prev (some StraightMovement.Backward) none =
        va + 4 * (piq / 4) - 2 * piq ∧
      moveAngleQ piq va prev (some StraightMovement.Backward)
          (some SideMovement.StrafeLeft) = va + 3 * (piq / 4) - 2 * piq ∧
      moveAngleQ piq va prev (some StraightMovement.Backward)
          (some SideMovement.StrafeRight) = va + (-3) * (piq / 4) ∧
      moveAngleQ piq va prev none (some SideMovement.StrafeLeft) =
        va + 2 * (piq / 4) ∧
      moveAngleQ piq va prev none (some SideMovement.StrafeRight) =
        va + (-2) * (piq / 4) ∧
      moveAngleQ piq va prev none none = prev := by
  refine ⟨?_, ?_, ?_, ?_, ?_, ?_, ?_, ?_, ?_⟩ <;>
    simp only [moveAngleQ] <;> ring

/-! ### Darkening lemmas -/

/-- The saturating cast never exceeds 255. -/
theorem castU8_le (q : ℚ) : castU8 q ≤ 255 := by
  unfold castU8
  split
  · exact Nat.zero_le _
  · exact min_le_left _ _

/-- The saturating cast is monotone. -/
theorem castU8_mono {q1 q2 : ℚ} (h : q1 ≤ q2) : castU8 q1 ≤ castU8 q2 := by
  unfold castU8
  rcases lt_or_le q1 0 with h1 | h1
  · rw [if_pos h1]
    exact Nat.zero_le _
  · rw [if_neg (not_lt.2 h1), if_neg (not_lt.2 (le_trans h1 h))]
    exact min_le_min le_rfl (Int.toNat_le_toNat (Int.floor_le_floor h))

/-- The darkening factor as a product: `min(l, pc)/pc · (4/3)`. -/
theorem darkFactor_eq (pc l : ℕ) :
    darkFactor pc l = ((min l pc : ℕ) : ℚ) / (pc : ℚ) * (4 / 3) := by
  unfold darkFactor DARKNESS
  ring

/-- The darkening factor is nonnegative. -/
theorem darkFactor_nonneg (pc l : ℕ) : 0 ≤ darkFactor pc l := by
  rw [darkFactor_eq]
  positivity

/-- The darkening factor is bounded by `1/DARKNESS = 4/3` — not by 1. -/
theorem darkFactor_le (pc l : ℕ) : darkFactor pc l ≤ 4 / 3 := by
  rw [darkFactor_eq]
  rcases Nat.eq_zero_or_pos pc with h | h
  · subst h
    norm_num
  · have hpc : (0 : ℚ) < pc := by exact_mod_cast h
    have h1 : ((min l pc : ℕ) : ℚ) / pc ≤ 1 := by
      rw [div_le_one hpc]
      exact_mod_cast min_le_right l pc
    have h0 : (0 : ℚ) ≤ ((min l pc : ℕ) : ℚ) / pc := by positivity
    linarith

/-- The darkening factor is monotone in the distance argument. -/
theorem darkFactor_mono (pc : ℕ) {l1 l2 : ℕ} (h : l1 ≤ l2) :
    darkFactor pc l1 ≤ darkFactor pc l2 := by
  rw [darkFactor_eq, darkFactor_eq]
  have hmin : ((min l1 pc : ℕ) : ℚ) ≤ ((min l2 pc : ℕ) : ℚ) := by
    exact_mod_cast min_le_min h (le_refl pc)
  gcongr

/-! ### C2: the darkening factor formula and its true bound -/

/-- C2 counterexample.  At `lightness = pix_center = 100` the factor is
`min(100,100)/100/0.75 = 4/3`, which exceeds 1: the claim's "never exceeds 1
after the division by the DARKNESS constant" is false on the code. -/
theorem darkFactor_exceeds_one : ¬ darkFactor 100 100 ≤ 1 := by
  rw [darkFactor_eq]
  norm_num

/-- C2 as amended.  The factor equals
`min(distance, horizon) / horizon / DARKNESS`; it is bounded by
`1/DARKNESS = 4/3` (not by 1) and attains `4/3` whenever the distance
reaches the horizon; it is applied multiplicatively to each channel through
the saturating 8-bit truncation, so each output channel is at most 255. -/
theorem put_darkened_factor_formula (pc l c : ℕ) :
    darkFactor pc l = ((min l pc : ℕ) : ℚ) / (pc : ℚ) / DARKNESS ∧
      darkFactor pc l ≤ 4 / 3 ∧
      (0 < pc → pc ≤ l → darkFactor pc l = 4 / 3) ∧
      darkChannel pc l c = castU8 ((c : ℚ) * darkFactor pc l) ∧
      darkChannel pc l c ≤ 255 := by
  refine ⟨rfl, darkFactor_le pc l, fun h1 h2 => ?_, rfl, castU8_le _⟩
  rw [darkFactor_eq, min_eq_right h2]
  have hpc : ((pc : ℚ)) ≠ 0 := by positivity
  rw [div_self hpc]
  ring

/-- C2 witness: the amended bound applied at `pix_center = 4`,
`lightness = 8`. -/
theorem put_darkened_factor_formula_witness : darkFactor 4 8 = 4 / 3 :=
  (put_darkened_factor_formula 4 8 0).2.2.1 (by decide) (by decide)

/-! ### C4: darkening is monotone the other way around -/

/-- C4 counterexample.  With `pix_center = 2` and a white channel, the
brightness at distance 2 is 255 while at distance 0 it is 0: increasing the
distance *increases* the brightness, and at distance 0 the result is black,
not the constant-scaled colour. -/
theorem darkChannel_increases : ¬ darkChannel 2 2 255 ≤ darkChannel 2 0 255 ∧
    darkChannel 2 0 255 ≠ castU8 ((255 : ℚ) * (1 / DARKNESS)) := by
  constructor
  · norm_num [darkChannel, darkFactor, castU8, DARKNESS]
  · norm_num [darkChannel, darkFactor, castU8, DARKNESS]

/-- C4 as amended.  For a fixed palette channel and horizon, the brightness
produced by `put_darkened_pixel` is non-*de*creasing in the distance
argument, and at distance 0 the channel is 0 (fully dark). -/
theorem darkChannel_monotone (pc c : ℕ) :
    (∀ l1 l2, l1 ≤ l2 → darkChannel pc l1 c ≤ darkChannel pc l2 c) ∧
      darkChannel pc 0 c = 0 := by
  constructor
  · intro l1 l2 h
    exact castU8_mono
      (mul_le_mul_of_nonneg_left (darkFactor_mono pc h) (by positivity))
  · have h0 : darkFactor pc 0 = 0 := by
      rw [darkFactor_eq]
      simp
    simp [darkChannel, h0, castU8]

/-- C4 witness: monotonicity applied at distances 3 ≤ 5. -/
theorem darkChannel_monotone_witness : darkChannel 7 3 9 ≤ darkChannel 7 5 9 :=
  (darkChannel_monotone 7 9).1 3 5 (by decide)

/-! ### C3: out-of-bounds write policy of the two pixel writers -/

set_option maxRecDepth 8192 in
/-- C3 counterexample.  On a 1×1 video with the full 256-entry palette,
`put_darkened_pixel` at the in-bounds pixel `(0,0)` with palette index 256
indexes `color_map` out of bounds — a Rust abort (`none`), not a silent
drop. -/
theorem put_darkened_pixel_oob_palette_aborts :
    put_darkened_pixel sampleVideo 0 0 256 0 = none ∧
      put_darkened_pixel sampleVideo 0 0 256 0 ≠ some sampleVideo := by
  constructor
  · decide
  · decide

/-- C3 as amended.  `put_pixel` silently drops off-screen writes and
palette indices at or beyond the palette length; `put_darkened_pixel`
silently drops off-screen (and off-buffer) writes, but an in-bounds write
with a palette index at or beyond the palette length is an out-of-bounds
array access (a Rust panic), not a silent drop. -/
theorem pixel_write_oob_policy (v : Video) (x y ci l : ℕ) :
    (v.width ≤ x ∨ v.height ≤ y →
      put_pixel v x y ci = v ∧ put_darkened_pixel v x y ci l = some v) ∧
      (v.color_map.length ≤ ci → put_pixel v x y ci = v) ∧
      (x < v.width → y < v.height → y * v.width + x < v.buffer.length →
        v.color_map.length ≤ ci → put_darkened_pixel v x y ci l = none) := by
  refine ⟨fun h => ⟨?_, ?_⟩, fun h => ?_, fun hx hy ho hc => ?_⟩
  · unfold put_pixel
    split_ifs
    rfl
  · unfold put_darkened_pixel
    split_ifs
    rfl
  · unfold put_pixel
    split_ifs <;> rfl
  · have h1 : ¬ (v.width ≤ x ∨ v.height ≤ y) := by
      push_neg
      exact ⟨by omega, by omega⟩
    have h2 : ¬ (v.buffer.length ≤ y * v.width + x) := by omega
    have h3 : ¬ (ci < v.color_map.length) := by omega
    simp only [put_darkened_pixel]
    rw [if_neg h1, if_neg h2, dif_neg h3]

set_option maxRecDepth 8192 in
/-- C3 witness: the policy applied on the sample video — an off-screen
`put_pixel` is dropped, and an in-bounds palette-256 `put_darkened_pixel`
aborts. -/
theorem pixel_write_oob_policy_witness :
    put_pixel sampleVideo 5 0 0 = sampleVideo ∧
      put_darkened_pixel sampleVideo 0 0 256 7 = none :=
  ⟨((pixel_write_oob_policy sampleVideo 5 0 0 0).1 (Or.inl (by decide))).1,
    (pixel_write_oob_policy sampleVideo 0 0 256 7).2.2 (by decide) (by decide)
      (by decide) (by decide)⟩

/-! ### C9: rows touched by the wall-texturing pass -/

/-- C9 counterexample.  With `pix_center = 2`, `pix_height = 4` and a hit of
half-height 3, the wall loop writes row 4 — equal to `pix_height`, because
the guard is `y <= pix_height`, not `y < pix_height`: the claim that no wall
pixel reaches a row at or beyond `pix_height` is false on the code. -/
theorem wallColumnRows_hits_pix_height :
    (4 : ℤ) ∈ wallColumnRows 2 4 3 ∧ ¬ ((4 : ℤ) < ((4 : ℕ) : ℤ)) := by
  constructor
  · decide
  · decide

/-- C9 as amended.  For every column the wall pass targets exactly the rows
in `[center - height, center + height)` intersected with `[0, pix_height]` —
the upper clip is *inclusive* of `pix_height` (one row into the status
area), not exclusive. -/
theorem wallColumnRows_exact (pc ph : ℕ) (cur y : ℤ) :
    y ∈ wallColumnRows pc ph cur ↔
      (pc : ℤ) - cur ≤ y ∧ y < (pc : ℤ) + cur ∧ 0 ≤ y ∧ y ≤ (ph : ℤ) := by
  unfold wallColumnRows
  rw [List.mem_filter, mem_intRange, decide_eq_true_eq]
  tauto

/-! ### C10: the framebuffer length invariant -/

/-- A single `put_pixel` preserves the buffer length. -/
theorem put_pixel_length (v : Video) (x y ci : ℕ) :
    (put_pixel v x y ci).buffer.length = v.buffer.length := by
  simp only [put_pixel]
  split_ifs <;> simp

/-- A non-aborting `put_darkened_pixel` preserves the buffer length. -/
theorem put_darkened_pixel_length (v : Video) (x y ci l : ℕ) (v2 : Video)
    (h : put_darkened_pixel v x y ci l = some v2) :
    v2.buffer.length = v.buffer.length := by
  simp only [put_darkened_pixel] at h
  split_ifs at h
  · injection h with h
    subst h
    rfl
  · injection h with h
    subst h
    rfl
  · injection h with h
    subst h
    simp

/-- Any sequence of `put_pixel` writes preserves the buffer length. -/
theorem applyWrites_length (ws : List (ℕ × ℕ × ℕ)) (v : Video) :
    (applyWrites v ws).buffer.length = v.buffer.length := by
  induction ws generalizing v with
  | nil => rfl
  | cons w ws ih =>
    show (applyWrites (put_pixel v w.1 w.2.1 w.2.2) ws).buffer.length = _
    rw [ih, put_pixel_length]

/-- C10.  `Video::new` establishes `buffer.len() = width * height`, and
`put_pixel`, `put_darkened_pixel` (when it returns) and every compositing
routine built as a sequence of `put_pixel` calls preserve the buffer
length: they only overwrite existing elements. -/
theorem framebuffer_length_invariant :
    (∀ bw bh sl cm sc,
      (video_new bw bh sl cm sc).buffer.length =
        (video_new bw bh sl cm sc).width * (video_new bw bh sl cm sc).height) ∧
      (∀ v x y ci, (put_pixel v x y ci).buffer.length = v.buffer.length) ∧
      (∀ v x y ci l v2, put_darkened_pixel v x y ci l = some v2 →
        v2.buffer.length = v.buffer.length) ∧
      (∀ v ws, (applyWrites v ws).buffer.length = v.buffer.length) := by
  refine ⟨fun bw bh sl cm sc => ?_, put_pixel_length,
    fun v x y ci l v2 h => put_darkened_pixel_length v x y ci l v2 h,
    fun v ws => applyWrites_length ws v⟩
  simp [video_new]

set_option maxRecDepth 8192 in
/-- C10 witness: the invariant applied at concrete inputs — a freshly
created video and a dropped off-screen darkened write. -/
theorem framebuffer_length_invariant_witness :
    (video_new 320 200 40 [] 3).buffer.length =
        (video_new 320 200 40 [] 3).width * (video_new 320 200 40 [] 3).height ∧
      sampleVideo.buffer.length = sampleVideo.buffer.length :=
  ⟨framebuffer_length_invariant.1 320 200 40 [] 3,
    framebuffer_length_invariant.2.2.1 sampleVideo 5 0 0 0 sampleVideo
      (by decide)⟩

/-! ### Sprite rasterizer lemmas -/

/-- Nat right-shift is division by the corresponding power of two. -/
theorem shiftRight_six (a : ℕ) : a >>> 6 = a / 64 := by
  rw [Nat.shiftRight_eq_div_pow]

/-- Right-shift by six is monotone. -/
theorem shiftRight_six_mono {a b : ℕ} (h : a ≤ b) : a >>> 6 ≤ b >>> 6 := by
  rw [shiftRight_six, shiftRight_six]
  exact Nat.div_le_div_right h

/-- A word read from the byte stream is a `u16` value. -/
theorem readWord_lt (l : List ℕ) : (readWord l).1 < 65536 := by
  unfold readWord
  have h1 : l.headD 0 % 256 < 256 := Nat.mod_lt _ (by norm_num)
  have h2 : (l.drop 1).headD 0 % 256 < 256 := Nat.mod_lt _ (by norm_num)
  simp only
  omega

/-- The `i32 as u32` cast is the identity on representable nonnegative
values. -/
theorem u32ofI32_of_nonneg {z : ℤ} (h0 : 0 ≤ z) (h1 : z < 2 ^ 32) :
    u32ofI32 z = z.toNat := by
  unfold u32ofI32
  omega

/-- The rows emitted by one run of the rasterizer stay below `pix_height`,
and all its pixels sit in the requested column.  The invariant carried
through the loop: `screndy` agrees with the accumulator and `pixy` is its
clamp-free cast. -/
theorem runLoop_bounds (pixheight : ℕ) (ue : ℤ) (ph lpix : ℕ)
    (hue : 0 ≤ ue) :
    ∀ (n ycnt : ℕ) (screndy : ℤ) (pixy : ℕ),
      screndy = ((ycnt >>> 6 : ℕ) : ℤ) + ue → pixy = screndy.toNat →
      ∀ p ∈ runLoop pixheight ue ph lpix n ycnt screndy pixy,
        p.1 = lpix ∧ p.2 < ph := by
  intro n
  induction n with
  | zero =>
    intro ycnt screndy pixy h1 h2 p hp
    simp [runLoop] at hp
  | succ n ih =>
    intro ycnt screndy pixy h1 h2 p hp
    have hmono : ycnt >>> 6 ≤ (ycnt + pixheight) >>> 6 :=
      shiftRight_six_mono (Nat.le_add_right _ _)
    simp only [runLoop] at hp
    split_ifs at hp
    all_goals
      first
        | (rcases List.mem_map.1 hp with ⟨k, hk, rfl⟩
           rw [List.mem_range] at hk
           exact ⟨rfl, by omega⟩)
        | (rcases List.mem_append.1 hp with hp | hp <;>
            first
              | (rcases List.mem_map.1 hp with ⟨k, hk, rfl⟩
                 rw [List.mem_range] at hk
                 exact ⟨rfl, by omega⟩)
              | (refine ih (ycnt + pixheight) _ _ rfl ?_ p hp
                 omega))
        | (refine ih (ycnt + pixheight) _ _ rfl ?_ p hp
           omega)

/-- One full run of the rasterizer writes only to its column, and only to
rows below `pix_height` (for the machine-representable accumulator values
the code can produce). -/
theorem runPixels_bounds (pixheight : ℕ) (ue : ℤ) (ph lpix starty endy : ℕ)
    (hue : 0 ≤ ue)
    (hlt : (((starty * pixheight) >>> 6 : ℕ) : ℤ) + ue < 2 ^ 32) :
    ∀ p ∈ runPixels pixheight ue ph lpix starty endy,
      p.1 = lpix ∧ p.2 < ph := by
  intro p hp
  simp only [runPixels] at hp
  refine runLoop_bounds pixheight ue ph lpix hue _ _ _ _ rfl ?_ p hp
  exact u32ofI32_of_nonneg (by omega) hlt

/-- Decoding a whole column command list writes only to its column and to
rows below `pix_height`. -/
theorem clineLoop_bounds (pixheight : ℕ) (ue : ℤ) (ph lpix : ℕ)
    (hue : 0 ≤ ue) (hue2 : ue ≤ 2 ^ 31) (hph : pixheight ≤ 2 ^ 17) :
    ∀ (n : ℕ) (line : List ℕ),
      ∀ p ∈ clineLoop pixheight ue ph lpix n line, p.1 = lpix ∧ p.2 < ph := by
  intro n
  induction n with
  | zero =>
    intro line p hp
    simp [clineLoop] at hp
  | succ n ih =>
    intro line p hp
    simp only [clineLoop] at hp
    split_ifs at hp with h0
    · simp at hp
    · rcases List.mem_append.1 hp with hp | hp
      · refine runPixels_bounds pixheight ue ph lpix _ _ hue ?_ p hp
        have hw : (readWord (readWordSigned (readWord line).2).2).1 < 65536 :=
          readWord_lt _
        have hst : (readWord (readWordSigned (readWord line).2).2).1 >>> 1 ≤
            32767 := by
          rw [Nat.shiftRight_eq_div_pow]
          omega
        have hprod : ((readWord (readWordSigned (readWord line).2).2).1 >>> 1) *
            pixheight ≤ 32767 * 2 ^ 17 := Nat.mul_le_mul hst hph
        have hshift : (((readWord (readWordSigned (readWord line).2).2).1 >>> 1) *
            pixheight) >>> 6 ≤ 32767 * 2 ^ 17 / 64 := by
          rw [shiftRight_six]
          exact Nat.div_le_div_right hprod
        omega
      · exact ih _ p hp

/-- Every pixel emitted by the outer column loop lands strictly inside the
`pix_width × pix_height` view. -/
theorem outerLoop_bounds (pw ph pixheight actx : ℕ) (ue : ℤ)
    (shape_bytes : List ℕ) (hue : 0 ≤ ue) (hue2 : ue ≤ 2 ^ 31)
    (hph : pixheight ≤ 2 ^ 17) :
    ∀ (n pixcnt rpix : ℕ) (dataofs : List ℕ),
      ∀ p ∈ outerLoop pw ph pixheight actx ue shape_bytes n pixcnt rpix
        dataofs, p.1 < pw ∧ p.2 < ph := by
  intro n
  induction n with
  | zero =>
    intro pixcnt rpix dataofs p hp
    simp [outerLoop] at hp
  | succ n ih =>
    intro pixcnt rpix dataofs p hp
    simp only [outerLoop] at hp
    split_ifs at hp with hbreak hdraw hstop
    · simp at hp
    · rcases List.mem_flatMap.1 hp with ⟨k, hk, hpk⟩
      rw [List.mem_range] at hk
      rcases clineLoop_bounds pixheight ue ph (rpix + k) hue hue2 hph _ _ p hpk
        with ⟨hp1, hp2⟩
      exact ⟨by omega, hp2⟩
    · rcases List.mem_append.1 hp with hp | hp
      · rcases List.mem_flatMap.1 hp with ⟨k, hk, hpk⟩
        rw [List.mem_range] at hk
        rcases clineLoop_bounds pixheight ue ph (rpix + k) hue hue2 hph _ _ p
          hpk with ⟨hp1, hp2⟩
        exact ⟨by omega, hp2⟩
      · exact ih _ _ _ p hp
    · exact ih _ _ _ p hp

/-- The destination-column accumulator is monotone in the source column. -/
theorem rpixAt_mono (pixheight actx : ℕ) {i j : ℕ} (h : i ≤ j) :
    rpixAt pixheight actx i ≤ rpixAt pixheight actx j := by
  unfold rpixAt
  exact Nat.add_le_add_right
    (shiftRight_six_mono (Nat.mul_le_mul_right _ h)) _

/-- The destination-row accumulator is monotone in the source row. -/
theorem screndyAt_mono (pixheight : ℕ) (ue : ℤ) {i j : ℕ} (h : i ≤ j) :
    screndyAt pixheight ue i ≤ screndyAt pixheight ue j := by
  unfold screndyAt
  have := shiftRight_six_mono (Nat.mul_le_mul_right pixheight h)
  omega

/-! ### C6: rasterizer scan monotonicity and screen bounds -/

/-- C6.  The destination column `rpix = (pixcnt >> 6) + actx` is
non-decreasing in the source column, the destination row
`screndy = (ycnt >> 6) + upperedge` is non-decreasing in the source row, and
every pixel emitted by `simple_scale_shape` has column `< pix_width` and row
`< pix_height`.  The hypotheses pin the screen sizes the renderer can
actually produce: an even `pix_height` (odd values underflow
`pix_height / 2 - scale` in `u32` and abort before any write) small enough
for the 6-bit fixed-point accumulators to stay below `2^32`. -/
theorem simple_scale_shape_monotone_bounded (pw ph left_pix right_pix : ℕ)
    (dataofs shape_bytes : List ℕ) (hev : 2 ∣ ph) (hsz : ph ≤ 2 ^ 16) :
    (∀ pixheight actx i j, i ≤ j →
      rpixAt pixheight actx i ≤ rpixAt pixheight actx j) ∧
      (∀ pixheight ue i j, i ≤ j →
        screndyAt pixheight ue i ≤ screndyAt pixheight ue j) ∧
      (∀ p ∈ simple_scale_shape pw ph left_pix right_pix dataofs shape_bytes,
        p.1 < pw ∧ p.2 < ph) := by
  refine ⟨fun a b i j h => rpixAt_mono a b h,
    fun a b i j h => screndyAt_mono a b h, ?_⟩
  intro p hp
  simp only [simple_scale_shape] at hp
  have hscale : (ph + 1) >>> 1 = ph / 2 := by
    rw [Nat.shiftRight_eq_div_pow]
    omega
  rw [hscale] at hp
  have hsub : u32sub (ph / 2) (ph / 2) = 0 := by
    unfold u32sub
    omega
  rw [hsub] at hp
  have hz : i32ofU32 0 = 0 := by
    unfold i32ofU32
    norm_num
  rw [hz] at hp
  exact outerLoop_bounds pw ph (ph / 2 * 2) (u32sub (pw / 2) (ph / 2)) 0
    shape_bytes le_rfl (by norm_num) (by omega) _ _ _ _ p hp

set_option maxRecDepth 16384 in
/-- C6 witness: the monotonicity applied at a concrete accumulator and the
bound applied to a concrete pixel of a concrete 128×128 rasterization (one
two-row run at the origin column). -/
theorem simple_scale_shape_monotone_bounded_witness :
    rpixAt 4 2 0 ≤ rpixAt 4 2 5 ∧
      ((0, 0) : ℕ × ℕ).1 < 128 ∧ ((0, 0) : ℕ × ℕ).2 < 128 :=
  ⟨(simple_scale_shape_monotone_bounded 128 128 0 1 [0]
        [2, 0, 0, 0, 0, 0, 0, 0] (by decide) (by decide)).1 4 2 0 5
      (by decide),
    (simple_scale_shape_monotone_bounded 128 128 0 1 [0]
        [2, 0, 0, 0, 0, 0, 0, 0] (by decide) (by decide)).2.2 (0, 0)
      (by decide)⟩

/-! ### Ray caster lemmas -/

/-- The per-axis boundary increment is positive on a travelled axis. -/
theorem tDelta_pos {d : ℚ} (hd : d ≠ 0) : 0 < tDelta d := by
  unfold tDelta
  rw [if_neg hd]
  exact div_pos one_pos (abs_pos.2 hd)

/-- The sign of a nonzero direction component, with its defining
inequality. -/
theorem sgnz_cases {d : ℚ} (hd : d ≠ 0) :
    (0 < d ∧ sgnz d = 1) ∨ (d < 0 ∧ sgnz d = -1) := by
  unfold sgnz
  rcases lt_trichotomy 0 d with h | h | h
  · exact Or.inl ⟨h, if_pos h⟩
  · exact absurd h.symm hd
  · refine Or.inr ⟨h, ?_⟩
    rw [if_neg (by linarith), if_pos h]

/-- The ray parameter of the first boundary ahead is positive on a
travelled axis. -/
theorem firstBoundary_pos {p d : ℚ} (hd : d ≠ 0) : 0 < firstBoundary p d := by
  unfold firstBoundary
  rcases lt_trichotomy 0 d with h | h | h
  · rw [if_pos h]
    apply div_pos _ h
    have := Int.lt_floor_add_one p
    linarith
  · exact absurd h.symm hd
  · rw [if_neg (by linarith), if_pos h]
    apply div_pos _ (by linarith : (0 : ℚ) < -d)
    split_ifs with he
    · linarith
    · have hle : ((⌊p⌋ : ℤ) : ℚ) ≤ p := Int.floor_le p
      have hlt : ((⌊p⌋ : ℤ) : ℚ) < p := lt_of_le_of_ne hle he
      linarith

/-- In a strictly interior cell with at least one travelled axis, the DDA
measure is at least 1. -/
theorem ddaMeasure_pos (W H : ℕ) (dx dy : ℚ) (s : DDAState)
    (hdir : dx ≠ 0 ∨ dy ≠ 0) (h1 : 1 ≤ s.cx) (h2 : s.cx ≤ (W : ℤ) - 2)
    (h3 : 1 ≤ s.cy) (h4 : s.cy ≤ (H : ℤ) - 2) :
    1 ≤ ddaMeasure W H dx dy s := by
  unfold ddaMeasure
  have hy0 : (0 : ℤ) ≤
      (if 0 < dy then (H : ℤ) - 1 - s.cy else if dy < 0 then s.cy else 0) := by
    split_ifs <;> omega
  have hx0 : (0 : ℤ) ≤
      (if 0 < dx then (W : ℤ) - 1 - s.cx else if dx < 0 then s.cx else 0) := by
    split_ifs <;> omega
  rcases hdir with hd | hd
  · have hx1 : (1 : ℤ) ≤
        (if 0 < dx then (W : ℤ) - 1 - s.cx else if dx < 0 then s.cx else 0) := by
      rcases sgnz_cases hd with ⟨hp, _⟩ | ⟨hp, _⟩
      · rw [if_pos hp]
        omega
      · rw [if_neg (by linarith), if_pos hp]
        omega
    omega
  · have hy1 : (1 : ℤ) ≤
        (if 0 < dy then (H : ℤ) - 1 - s.cy else if dy < 0 then s.cy else 0) := by
      rcases sgnz_cases hd with ⟨hp, _⟩ | ⟨hp, _⟩
      · rw [if_pos hp]
        omega
      · rw [if_neg (by linarith), if_pos hp]
        omega
    omega

/-- Main DDA induction: from a strictly interior cell, with positive
pending boundary crossings on the travelled axes and fuel at least the
measure, the cast returns a hit of positive height. -/
theorem castRay_terminates (W H : ℕ) (M : ℤ → ℤ → Tile)
    (dx dy projK viewCos : ℚ)
    (hring : ∀ x y : ℤ,
      x ≤ 0 ∨ (W : ℤ) - 1 ≤ x ∨ y ≤ 0 ∨ (H : ℤ) - 1 ≤ y →
      ∃ id, M x y = Tile.Wall id)
    (hdir : dx ≠ 0 ∨ dy ≠ 0) (hk : 0 < projK) (hc : 0 < viewCos) :
    ∀ (n : ℕ) (s : DDAState),
      1 ≤ s.cx → s.cx ≤ (W : ℤ) - 2 → 1 ≤ s.cy → s.cy ≤ (H : ℤ) - 2 →
      (dx ≠ 0 → 0 < s.tMaxX) → (dy ≠ 0 → 0 < s.tMaxY) →
      ddaMeasure W H dx dy s ≤ (n : ℤ) →
      ∃ h, castRay M dx dy projK viewCos n s = some h ∧ 0 < h.height := by
  intro n
  induction n with
  | zero =>
    intro s h1 h2 h3 h4 _ _ hm
    exact absurd hm
      (by have := ddaMeasure_pos W H dx dy s hdir h1 h2 h3 h4; omega)
  | succ n ih =>
    intro s h1 h2 h3 h4 htx hty hm
    cases hb : stepIsX dx dy s with
    | true =>
      have hdx : dx ≠ 0 := by
        simp only [stepIsX, Bool.and_eq_true, Bool.or_eq_true,
          decide_eq_true_eq] at hb
        exact hb.1
      have ht : 0 < s.tMaxX := htx hdx
      simp only [castRay, ddaStep, hb, if_true]
      have hrec : (∀ id, M (s.cx + sgnz dx) s.cy ≠ Tile.Wall id) →
          ∃ h, castRay M dx dy projK viewCos n
              ⟨s.cx + sgnz dx, s.cy, s.tMaxX + tDelta dx, s.tMaxY⟩ = some h ∧
            0 < h.height := by
        intro hnw
        have hsg : sgnz dx = 1 ∨ sgnz dx = -1 := by
          rcases sgnz_cases hdx with ⟨_, hs⟩ | ⟨_, hs⟩
          · exact Or.inl hs
          · exact Or.inr hs
        have hx1 : 1 ≤ s.cx + sgnz dx := by
          by_contra hlt
          push_neg at hlt
          rcases hring (s.cx + sgnz dx) s.cy (Or.inl (by omega)) with ⟨id, hid⟩
          exact hnw id hid
        have hx2 : s.cx + sgnz dx ≤ (W : ℤ) - 2 := by
          by_contra hlt
          push_neg at hlt
          rcases hring (s.cx + sgnz dx) s.cy (Or.inr (Or.inl (by omega)))
            with ⟨id, hid⟩
          exact hnw id hid
        have hmeq : ddaMeasure W H dx dy
            ⟨s.cx + sgnz dx, s.cy, s.tMaxX + tDelta dx, s.tMaxY⟩ =
            ddaMeasure W H dx dy s - 1 := by
          unfold ddaMeasure
          dsimp only
          rcases sgnz_cases hdx with ⟨hp, hs⟩ | ⟨hp, hs⟩
          · rw [hs, if_pos hp, if_pos hp]
            omega
          · rw [hs, if_neg (by linarith : ¬ (0 : ℚ) < dx),
              if_neg (by linarith : ¬ (0 : ℚ) < dx), if_pos hp, if_pos hp]
            omega
        refine ih ⟨s.cx + sgnz dx, s.cy, s.tMaxX + tDelta dx, s.tMaxY⟩ hx1 hx2
          h3 h4 (fun _ => ?_) hty ?_
        · have := tDelta_pos hdx
          dsimp only
          linarith
        · rw [hmeq]
          omega
      cases hM : M (s.cx + sgnz dx) s.cy with
      | Wall id =>
        refine ⟨⟨false, id, hitHeight projK viewCos s.tMaxX⟩, rfl, ?_⟩
        unfold hitHeight
        exact div_pos hk (mul_pos ht hc)
      | Floor =>
        exact hrec (fun id hid => by rw [hM] at hid; exact Tile.noConfusion hid)
      | Door b =>
        exact hrec (fun id hid => by rw [hM] at hid; exact Tile.noConfusion hid)
    | false =>
      have hdy : dy ≠ 0 := by
        intro hdy0
        by_cases hdx0 : dx = 0
        · rcases hdir with h | h
          · exact h hdx0
          · exact h hdy0
        · have : stepIsX dx dy s = true := by
            simp [stepIsX, hdx0, hdy0]
          rw [hb] at this
          exact Bool.noConfusion this
      have ht : 0 < s.tMaxY := hty hdy
      simp only [castRay, ddaStep, hb, Bool.false_eq_true, if_false]
      have hrec : (∀ id, M s.cx (s.cy + sgnz dy) ≠ Tile.Wall id) →
          ∃ h, castRay M dx dy projK viewCos n
              ⟨s.cx, s.cy + sgnz dy, s.tMaxX, s.tMaxY + tDelta dy⟩ = some h ∧
            0 < h.height := by
        intro hnw
        have hy1 : 1 ≤ s.cy + sgnz dy := by
          by_contra hlt
          push_neg at hlt
          rcases hring s.cx (s.cy + sgnz dy)
            (Or.inr (Or.inr (Or.inl (by omega)))) with ⟨id, hid⟩
          exact hnw id hid
        have hy2 : s.cy + sgnz dy ≤ (H : ℤ) - 2 := by
          by_contra hlt
          push_neg at hlt
          rcases hring s.cx (s.cy + sgnz dy)
            (Or.inr (Or.inr (Or.inr (by omega)))) with ⟨id, hid⟩
          exact hnw id hid
        have hmeq : ddaMeasure W H dx dy
            ⟨s.cx, s.cy + sgnz dy, s.tMaxX, s.tMaxY + tDelta dy⟩ =
            ddaMeasure W H dx dy s - 1 := by
          unfold ddaMeasure
          dsimp only
          rcases sgnz_cases hdy with ⟨hp, hs⟩ | ⟨hp, hs⟩
          · rw [hs, if_pos hp, if_pos hp]
            omega
          · rw [hs, if_neg (by linarith : ¬ (0 : ℚ) < dy),
              if_neg (by linarith : ¬ (0 : ℚ) < dy), if_pos hp, if_pos hp]
            omega
        refine ih ⟨s.cx, s.cy + sgnz dy, s.tMaxX, s.tMaxY + tDelta dy⟩ h1 h2
          hy1 hy2 htx (fun _ => ?_) ?_
        · have := tDelta_pos hdy
          dsimp only
          linarith
        · rw [hmeq]
          omega
      cases hM : M s.cx (s.cy + sgnz dy) with
      | Wall id =>
        refine ⟨⟨true, id, hitHeight projK viewCos s.tMaxY⟩, rfl, ?_⟩
        unfold hitHeight
        exact div_pos hk (mul_pos ht hc)
      | Floor =>
        exact hrec (fun id hid => by rw [hM] at hid; exact Tile.noConfusion hid)
      | Door b =>
        exact hrec (fun id hid => by rw [hM] at hid; exact Tile.noConfusion hid)

/-! ### C5: ray termination with positive height -/

/-- C5 (spec-modelled; `ray_caster.rs` is not in `src/`).  For every map
whose boundary ring (and beyond) is walls, every camera position strictly
inside the interior, and every ray direction, casting terminates with a
`Hit` within `map_width + map_height` grid steps, and the hit's projected
half-height is positive (projection constant and fisheye cosine being
positive). -/
theorem cast_ray_hits_wall (W H : ℕ) (M : ℤ → ℤ → Tile)
    (px py dx dy projK viewCos : ℚ)
    (hring : ∀ x y : ℤ,
      x ≤ 0 ∨ (W : ℤ) - 1 ≤ x ∨ y ≤ 0 ∨ (H : ℤ) - 1 ≤ y →
      ∃ id, M x y = Tile.Wall id)
    (hpx1 : 1 ≤ ⌊px⌋) (hpx2 : ⌊px⌋ ≤ (W : ℤ) - 2)
    (hpy1 : 1 ≤ ⌊py⌋) (hpy2 : ⌊py⌋ ≤ (H : ℤ) - 2)
    (hdir : dx ≠ 0 ∨ dy ≠ 0) (hk : 0 < projK) (hc : 0 < viewCos) :
    ∃ h, castRay M dx dy projK viewCos (W + H) (initDDA px py dx dy) =
      some h ∧ 0 < h.height := by
  apply castRay_terminates W H M dx dy projK viewCos hring hdir hk hc (W + H)
    (initDDA px py dx dy) hpx1 hpx2 hpy1 hpy2
  · intro hdx
    exact firstBoundary_pos hdx
  · intro hdy
    exact firstBoundary_pos hdy
  · unfold ddaMeasure initDDA
    dsimp only
    have hx : (if 0 < dx then (W : ℤ) - 1 - ⌊px⌋
        else if dx < 0 then (⌊px⌋ : ℤ) else 0) ≤ (W : ℤ) := by
      split_ifs <;> omega
    have hy : (if 0 < dy then (H : ℤ) - 1 - ⌊py⌋
        else if dy < 0 then (⌊py⌋ : ℤ) else 0) ≤ (H : ℤ) := by
      split_ifs <;> omega
    omega

/-- C5 witness: a 3×3 map with a single interior floor cell, camera at its
centre, ray pointing along positive x; the cast hits the ring wall in the
allotted `3 + 3` steps with positive height. -/
theorem cast_ray_hits_wall_witness :
    ∃ h, castRay
        (fun x y => if x = 1 ∧ y = 1 then Tile.Floor else Tile.Wall 1)
        1 0 1 1 (3 + 3) (initDDA 1 1 1 0) = some h ∧ 0 < h.height :=
  cast_ray_hits_wall 3 3
    (fun x y => if x = 1 ∧ y = 1 then Tile.Floor else Tile.Wall 1)
    1 1 1 0 1 1
    (fun x y hxy => ⟨1, if_neg (by omega)⟩)
    (by decide) (by decide) (by decide) (by decide)
    (Or.inl (by decide)) (by decide) (by decide)

end Raycasting
